import Mathlib

/-!
Verification of the BAM-comparison core of pytest-wdl
(src/pytest_wdl/data_types/bam.py), modelled as a shallow embedding.

Modelling conventions:
* A BAM file is opaque: the external converter (pysam.view) is modelled as a
  function from the flags the code passes (emit headers, optional -q value)
  to the SAM text it would print.
* The external tools invoked through the shell (GNU sort with the key options
  used by the code, GNU cut -f) are modelled concretely at the line level.
* The generic text comparator (assert_text_files_equal / diff_default) lives
  in pytest_wdl/data_types/__init__.py, which is not part of the sources at
  hand; it is modelled from the spec (section 4.4).
* Strings are Lean Strings; all character-level work happens on String.data
  so every definition evaluates by kernel reduction.
-/

/-- Python truthiness of an Optional[int] value: truthy iff present and nonzero. -/
def pyTruthyNat : Option Nat → Bool
  | some n => n ≠ 0
  | none => false

/-- Characters stripped by Python str.rstrip (ASCII whitespace). -/
def isPySpace (c : Char) : Bool :=
  c = ' ' || c = '\t' || c = '\n' || c = '\r' || c = Char.ofNat 11 || c = Char.ofNat 12

/-- Python s.rstrip(): drop trailing whitespace characters. -/
def pyRstrip (s : String) : String :=
  ⟨(s.data.reverse.dropWhile isPySpace).reverse⟩

/-- Concatenate a list of strings (Python "".join). -/
def joinAll : List String → String
  | [] => ""
  | x :: xs => x ++ joinAll xs

/-- Join strings with a separator between consecutive elements. -/
def joinWith (sep : String) : List String → String
  | [] => ""
  | [x] => x
  | x :: xs => x ++ sep ++ joinWith sep xs

/-- Split a character list at every occurrence of a separator character. -/
def splitChAux (sep : Char) : List Char → List Char → List String
  | acc, [] => [⟨acc.reverse⟩]
  | acc, c :: rest =>
    if c = sep then (⟨acc.reverse⟩ : String) :: splitChAux sep [] rest
    else splitChAux sep (c :: acc) rest

/-- Split a string on a single-character separator (Python str.split(sep)). -/
def splitCh (sep : Char) (s : String) : List String :=
  splitChAux sep [] s.data

/-- Lines of a text file as read by the external tools: split on newline,
dropping the empty fragment after a trailing newline. -/
def fileLines (s : String) : List String :=
  let parts := splitCh '\n' s
  if parts.getLast? = some "" then parts.dropLast else parts

/-- Python s.splitlines(keepends=True), restricted to the newline separator
(the only line terminator occurring in SAM text). Auxiliary recursion. -/
def splitKEAux : List Char → List Char → List String
  | acc, [] => if acc.isEmpty then [] else [⟨acc.reverse⟩]
  | acc, c :: rest =>
    if c = '\n' then (⟨(c :: acc).reverse⟩ : String) :: splitKEAux [] rest
    else splitKEAux (c :: acc) rest

/-- Python s.splitlines(keepends=True). -/
def splitlinesKeepEnds (s : String) : List String :=
  splitKEAux [] s.data

/-- Word characters as matched by the regex class backslash-w (ASCII model). -/
def isWordChar (c : Char) : Bool :=
  c.isAlphanum || c = '_'

/-- Drop the maximal leading run of word characters. -/
def dropWord : List Char → List Char
  | [] => []
  | c :: cs => if isWordChar c then dropWord cs else c :: cs

/-- Replacement text of the read-group normalization. -/
def placeholderChars : List Char :=
  "UNSET-placeholder".data

/-- Does the regex UNSET-followed-by-word-run-at-a-word-boundary match at the
head of the character list?  Because the word run is greedy and must end at a
word boundary, a match requires the literal prefix and at least one word
character after the hyphen. -/
def unsetMatch : List Char → Bool
  | c1 :: c2 :: c3 :: c4 :: c5 :: c6 :: c7 :: _ =>
    c1 = 'U' && c2 = 'N' && c3 = 'S' && c4 = 'E' && c5 = 'T' && c6 = '-' && isWordChar c7
  | _ => false

/-- Fuel-indexed scanner for re.sub of the read-group pattern: copy characters
until a match starts, then emit the placeholder and resume after the matched
word run.  Fuel at least the length of the list makes the fuel irrelevant. -/
def subUnsetF : Nat → List Char → List Char
  | _, [] => []
  | 0, l => l
  | fuel + 1, c :: cs =>
    if unsetMatch (c :: cs) then
      placeholderChars ++ subUnsetF fuel (dropWord (cs.drop 5))
    else
      c :: subUnsetF fuel cs

/-- The re.sub scan of the code, with adequate fuel. -/
def subUnset (l : List Char) : List Char :=
  subUnsetF l.length l

/-- String form of the read-group normalization
(re.sub applied in bam_to_sam, line 174 of bam.py). -/
def reSubUnset (s : String) : String :=
  ⟨subUnset s.data⟩

theorem dropWord_length_le : ∀ l : List Char, (dropWord l).length ≤ l.length := by
  intro l
  induction l with
  | nil => simp [dropWord]
  | cons c cs ih =>
    simp only [dropWord]
    by_cases h : isWordChar c = true
    · simp [h]; exact Nat.le_succ_of_le ih
    · simp [h]

theorem subUnsetF_nil (fuel : Nat) : subUnsetF fuel [] = [] := by
  cases fuel <;> rfl

theorem unsetMatch_shape {c : Char} {cs : List Char} (h : unsetMatch (c :: cs) = true) :
    c = 'U' ∧ ∃ d t, cs = 'N' :: 'S' :: 'E' :: 'T' :: '-' :: d :: t ∧ isWordChar d = true := by
  rcases cs with _ | ⟨c2, _ | ⟨c3, _ | ⟨c4, _ | ⟨c5, _ | ⟨c6, _ | ⟨d, t⟩⟩⟩⟩⟩⟩ <;>
    simp only [unsetMatch, Bool.and_eq_true, decide_eq_true_eq] at h
  all_goals first
  | exact absurd h Bool.false_ne_true
  | (obtain ⟨⟨⟨⟨⟨⟨h1, h2⟩, h3⟩, h4⟩, h5⟩, h6⟩, h7⟩ := h
     subst h2; subst h3; subst h4; subst h5; subst h6
     exact ⟨h1, d, t, rfl, h7⟩)

theorem subUnsetF_fuel_irrel :
    ∀ fuel1 fuel2 l, l.length ≤ fuel1 → l.length ≤ fuel2 →
      subUnsetF fuel1 l = subUnsetF fuel2 l := by
  intro fuel1
  induction fuel1 with
  | zero =>
    intro fuel2 l h1 _
    have : l = [] := List.length_eq_zero.mp (Nat.le_zero.mp h1)
    subst this
    simp [subUnsetF_nil]
  | succ f ih =>
    intro fuel2 l h1 h2
    match l with
    | [] => simp [subUnsetF_nil]
    | c :: cs =>
      match fuel2 with
      | 0 => exact absurd h2 (by simp)
      | g + 1 =>
        simp only [subUnsetF]
        have hcsf : cs.length ≤ f := by
          have := h1; simp only [List.length_cons] at this; omega
        have hcsg : cs.length ≤ g := by
          have := h2; simp only [List.length_cons] at this; omega
        by_cases hm : unsetMatch (c :: cs) = true
        · simp only [hm, if_true]
          have hlen : (dropWord (cs.drop 5)).length ≤ cs.length := by
            calc (dropWord (cs.drop 5)).length ≤ (cs.drop 5).length :=
                  dropWord_length_le _
              _ ≤ cs.length := by simp
          rw [ih g (dropWord (cs.drop 5)) (Nat.le_trans hlen hcsf) (Nat.le_trans hlen hcsg)]
        · simp only [Bool.not_eq_true] at hm
          simp only [hm, Bool.false_eq_true, if_false]
          rw [ih g cs hcsf hcsg]

theorem subUnset_nil : subUnset [] = [] := rfl

theorem subUnset_cons_nomatch {c : Char} {cs : List Char}
    (h : unsetMatch (c :: cs) = false) : subUnset (c :: cs) = c :: subUnset cs := by
  simp only [subUnset, List.length_cons, subUnsetF, h, if_false, Bool.false_eq_true]

theorem subUnset_cons_match {c : Char} {cs : List Char}
    (h : unsetMatch (c :: cs) = true) :
    subUnset (c :: cs) = placeholderChars ++ subUnset (dropWord (cs.drop 5)) := by
  simp only [subUnset, List.length_cons, subUnsetF, h, if_true]
  congr 1
  have hlen : (dropWord (cs.drop 5)).length ≤ cs.length := by
    calc (dropWord (cs.drop 5)).length ≤ (cs.drop 5).length := dropWord_length_le _
      _ ≤ cs.length := by simp
  exact subUnsetF_fuel_irrel _ _ _ hlen (Nat.le_refl _)

theorem dropWord_append_word {w r : List Char} (h : ∀ c ∈ w, isWordChar c = true) :
    dropWord (w ++ r) = dropWord r := by
  induction w with
  | nil => rfl
  | cons c cs ih =>
    have hc : isWordChar c = true := h c (by simp)
    simp only [List.cons_append, dropWord, hc, if_true]
    exact ih (fun d hd => h d (by simp [hd]))

theorem dropWord_of_head_not_word :
    ∀ {r : List Char}, (r = [] ∨ ∃ d t, r = d :: t ∧ isWordChar d = false) →
      dropWord r = r := by
  intro r h
  rcases h with h | ⟨d, t, h, hw⟩
  · subst h; rfl
  · subst h; simp [dropWord, hw]

theorem dropWord_shape (l : List Char) :
    dropWord l = [] ∨ ∃ c cs, dropWord l = c :: cs ∧ isWordChar c = false := by
  induction l with
  | nil => exact Or.inl rfl
  | cons c cs ih =>
    by_cases hc : isWordChar c = true
    · simpa [dropWord, hc] using ih
    · simp only [Bool.not_eq_true] at hc
      exact Or.inr ⟨c, cs, by simp [dropWord, hc], hc⟩

theorem unsetMatch_head_not_word {c : Char} {cs : List Char} (h : isWordChar c = false) :
    unsetMatch (c :: cs) = false := by
  by_contra hm
  simp only [Bool.not_eq_false] at hm
  obtain ⟨hU, _⟩ := unsetMatch_shape hm
  subst hU
  exact absurd h (by decide)

theorem subUnset_headCases (l : List Char) (x : Char) (xs : List Char)
    (h : subUnset l = x :: xs) :
    (unsetMatch l = true ∧ x = 'U') ∨
      (∃ cs, l = x :: cs ∧ unsetMatch l = false ∧ xs = subUnset cs) := by
  match l with
  | [] => exact absurd h (by simp [subUnset_nil])
  | c :: cs =>
    by_cases hm : unsetMatch (c :: cs) = true
    · left
      refine ⟨hm, ?_⟩
      rw [subUnset_cons_match hm] at h
      have : placeholderChars ++ subUnset (dropWord (cs.drop 5)) =
          'U' :: ("NSET-placeholder".data ++ subUnset (dropWord (cs.drop 5))) := rfl
      rw [this] at h
      exact (List.cons.injEq _ _ _ _ ▸ h).1.symm
    · right
      simp only [Bool.not_eq_true] at hm
      rw [subUnset_cons_nomatch hm] at h
      obtain ⟨hx, hxs⟩ := List.cons.injEq .. ▸ h
      exact ⟨cs, by rw [hx], hm, hxs.symm⟩

theorem subUnset_head_nomatch {c : Char} {cs : List Char}
    (h : unsetMatch (c :: cs) = false) : unsetMatch (c :: subUnset cs) = false := by
  by_contra hm
  simp only [Bool.not_eq_false] at hm
  obtain ⟨hU, d, t, hsub, hw⟩ := unsetMatch_shape hm
  subst hU
  rcases subUnset_headCases cs 'N' _ hsub with ⟨_, hx⟩ | ⟨cs1, hcs, _, h1⟩
  · exact absurd hx (by decide)
  rcases subUnset_headCases cs1 'S' _ h1.symm with ⟨_, hx⟩ | ⟨cs2, hcs2, _, h2⟩
  · exact absurd hx (by decide)
  rcases subUnset_headCases cs2 'E' _ h2.symm with ⟨_, hx⟩ | ⟨cs3, hcs3, _, h3⟩
  · exact absurd hx (by decide)
  rcases subUnset_headCases cs3 'T' _ h3.symm with ⟨_, hx⟩ | ⟨cs4, hcs4, _, h4⟩
  · exact absurd hx (by decide)
  rcases subUnset_headCases cs4 '-' _ h4.symm with ⟨_, hx⟩ | ⟨cs5, hcs5, _, h5⟩
  · exact absurd hx (by decide)
  have hcs5shape : ∃ e es, cs5 = e :: es ∧ isWordChar e = true := by
    rcases subUnset_headCases cs5 d _ h5.symm with ⟨hm5, _⟩ | ⟨cs6, hcs6, _, _⟩
    · match cs5, hm5 with
      | [], hm5 => exact absurd hm5 (by decide)
      | e :: es, hm5 =>
        obtain ⟨hU5, _⟩ := unsetMatch_shape hm5
        exact ⟨e, es, rfl, by rw [hU5]; decide⟩
    · exact ⟨d, cs6, hcs6, hw⟩
  obtain ⟨e, es, hc5e, he⟩ := hcs5shape
  subst hcs; subst hcs2; subst hcs3; subst hcs4; subst hcs5; subst hc5e
  have hT : unsetMatch ('U' :: 'N' :: 'S' :: 'E' :: 'T' :: '-' :: e :: es) = true := he
  rw [hT] at h
  exact absurd h (by decide)

theorem subUnset_placeholder_append {r : List Char}
    (hr : r = [] ∨ ∃ d t, r = d :: t ∧ isWordChar d = false) :
    subUnset (placeholderChars ++ r) = placeholderChars ++ subUnset r := by
  have hshape : placeholderChars ++ r =
      'U' :: ('N' :: 'S' :: 'E' :: 'T' :: '-' :: 'p' :: ("laceholder".data ++ r)) := rfl
  have hm : unsetMatch
      ('U' :: 'N' :: 'S' :: 'E' :: 'T' :: '-' :: 'p' :: ("laceholder".data ++ r)) = true := rfl
  rw [hshape, subUnset_cons_match hm]
  have hdrop :
      dropWord (('N' :: 'S' :: 'E' :: 'T' :: '-' :: 'p' :: ("laceholder".data ++ r)).drop 5) =
        r := by
    have h1 : ('N' :: 'S' :: 'E' :: 'T' :: '-' :: 'p' :: ("laceholder".data ++ r)).drop 5 =
        "placeholder".data ++ r := rfl
    rw [h1, dropWord_append_word (by decide), dropWord_of_head_not_word hr]
  rw [hdrop]

theorem subUnset_head_shape {r : List Char}
    (hr : r = [] ∨ ∃ d t, r = d :: t ∧ isWordChar d = false) :
    subUnset r = [] ∨ ∃ d t, subUnset r = d :: t ∧ isWordChar d = false := by
  rcases hr with h | ⟨d, t, h, hw⟩
  · subst h; exact Or.inl subUnset_nil
  · subst h
    have hm : unsetMatch (d :: t) = false := unsetMatch_head_not_word hw
    rw [subUnset_cons_nomatch hm]
    exact Or.inr ⟨d, subUnset t, rfl, hw⟩

theorem subUnset_idem_aux :
    ∀ n (l : List Char), l.length ≤ n → subUnset (subUnset l) = subUnset l := by
  intro n
  induction n with
  | zero =>
    intro l h
    have : l = [] := List.length_eq_zero.mp (Nat.le_zero.mp h)
    subst this; rfl
  | succ n ih =>
    intro l h
    match l with
    | [] => rfl
    | c :: cs =>
      by_cases hm : unsetMatch (c :: cs) = true
      · rw [subUnset_cons_match hm]
        have hrs : dropWord (cs.drop 5) = [] ∨
            ∃ e u, dropWord (cs.drop 5) = e :: u ∧ isWordChar e = false := dropWord_shape _
        rw [subUnset_placeholder_append (subUnset_head_shape hrs)]
        congr 1
        apply ih
        have h1 : (dropWord (cs.drop 5)).length ≤ cs.length := by
          calc (dropWord (cs.drop 5)).length ≤ (cs.drop 5).length := dropWord_length_le _
            _ ≤ cs.length := by rw [List.length_drop]; omega
        have h2 : cs.length ≤ n := by simp only [List.length_cons] at h; omega
        exact Nat.le_trans h1 h2
      · simp only [Bool.not_eq_true] at hm
        rw [subUnset_cons_nomatch hm, subUnset_cons_nomatch (subUnset_head_nomatch hm)]
        congr 1
        apply ih
        simp only [List.length_cons] at h; omega

theorem subUnset_idem (l : List Char) : subUnset (subUnset l) = subUnset l :=
  subUnset_idem_aux l.length l (Nat.le_refl _)

/-- Sorting modes (bam.py class Sorting). -/
inductive Sorting where
  | NONE
  | COORDINATE
  | NAME
deriving DecidableEq

/-- A binary alignment file, opaque except through the external converter:
the view field maps the flags bam_to_sam passes to pysam.view (the -h flag
and an optional -q value) to the SAM text the converter prints. -/
structure BamFile where
  view : Bool → Option Nat → String

/-- The -q argument bam_to_sam passes to the converter: present only when the
min_mapq argument is truthy (bam.py lines 170-171). -/
def effQ (min_mapq : Option Nat) : Option Nat :=
  if pyTruthyNat min_mapq then min_mapq else none

/-- Field of a line for a GNU sort key, 1-based; the SAM text is tab-delimited,
so sort fields coincide with tab-separated fields; missing fields are empty. -/
def sortField (line : String) (n : Nat) : String :=
  (splitCh '\t' line).getD (n - 1) ""

/-- Accumulate the value of the leading digit run of a character list. -/
def digitsVal : List Char → Nat → Nat
  | [], acc => acc
  | c :: cs, acc => if c.isDigit then digitsVal cs (acc * 10 + (c.toNat - 48)) else acc

/-- Leading integer of a string as read by GNU sort -n: optional leading
blanks, optional minus sign, digit run; anything else counts as 0. -/
def leadInt (s : String) : Int :=
  match s.data.dropWhile (fun c => c = ' ' || c = '\t') with
  | '-' :: rest => - Int.ofNat (digitsVal rest 0)
  | l => Int.ofNat (digitsVal l 0)

/-- Lexicographic character comparison (byte order, C locale). -/
def chListCmp : List Char → List Char → Ordering
  | [], [] => Ordering.eq
  | [], _ :: _ => Ordering.lt
  | _ :: _, [] => Ordering.gt
  | a :: as, b :: bs =>
    if a.toNat < b.toNat then Ordering.lt
    else if b.toNat < a.toNat then Ordering.gt
    else chListCmp as bs

/-- String comparison in byte order. -/
def strCmp (a b : String) : Ordering :=
  chListCmp a.data b.data

/-- Integer comparison as an Ordering. -/
def intCmp (a b : Int) : Ordering :=
  if a < b then Ordering.lt else if b < a then Ordering.gt else Ordering.eq

/-- Model of sort -k3,3 -k4,4n -k2,2n (bam.py line 190) with the last-resort
whole-line comparison GNU sort appends when all keys compare equal. -/
def coordCmp (l1 l2 : String) : Ordering :=
  (strCmp (sortField l1 3) (sortField l2 3)).then
    ((intCmp (leadInt (sortField l1 4)) (leadInt (sortField l2 4))).then
      ((intCmp (leadInt (sortField l1 2)) (leadInt (sortField l2 2))).then
        (strCmp l1 l2)))

/-- Model of sort -k1,1 -k2,2n (bam.py line 192) with the last-resort
whole-line comparison. -/
def nameCmp (l1 l2 : String) : Ordering :=
  (strCmp (sortField l1 1) (sortField l2 1)).then
    ((intCmp (leadInt (sortField l1 2)) (leadInt (sortField l2 2))).then
      (strCmp l1 l2))

/-- Less-or-equal for the external sort: the COORDINATE key when requested,
the NAME key otherwise (matching the if/else of bam.py lines 189-192). -/
def sortKeyLE (sorting : Sorting) (l1 l2 : String) : Bool :=
  match (match sorting with
         | Sorting.COORDINATE => coordCmp l1 l2
         | _ => nameCmp l1 l2) with
  | Ordering.gt => false
  | _ => true

/-- Insert into a sorted list of lines. -/
def insertSorted (le : String → String → Bool) (x : String) : List String → List String
  | [] => [x]
  | y :: ys => if le x y then x :: y :: ys else y :: insertSorted le x ys

/-- Stable sort of lines by a total preorder. -/
def sortLinesBy (le : String → String → Bool) : List String → List String
  | [] => []
  | x :: xs => insertSorted le x (sortLinesBy le xs)

/-- Model of subby.sub("cat file | sort keys") (bam.py line 193): sort the
lines of the text by the composite key; the captured stdout comes back with
trailing whitespace stripped, hence no trailing newline. -/
def runSort (sorting : Sorting) (input : String) : String :=
  joinWith "\n" (sortLinesBy (sortKeyLE sorting) (fileLines input))

/-- Does a line start with the header marker (Python line.startswith("@"))? -/
def isHeaderLine (l : String) : Bool :=
  match l.data with
  | c :: _ => c = '@'
  | [] => false

/-- The scan of bam_to_sam lines 178-183: starting from index 0, the index of
the first line that does not begin with the header marker; the start variable
keeps its initial value 0 when every line is a header line. -/
def firstNonHeaderAux : Nat → List String → Nat
  | _, [] => 0
  | i, l :: ls => if isHeaderLine l then firstNonHeaderAux (i + 1) ls else i

/-- The value of the start variable after the scan. -/
def firstNonHeader (lines : List String) : Nat :=
  firstNonHeaderAux 0 lines

/-- The converter output after normalization (bam.py lines 167-174): the view
text right-stripped, with random read-group identifiers replaced by the
placeholder. -/
def normalizedText (input_bam : BamFile) (headers : Bool) (min_mapq : Option Nat) : String :=
  reSubUnset (pyRstrip (input_bam.view headers (effQ min_mapq)))

/-- Python exceptions other than assertion failures raised by the embedded
code; the argument names the local variable of an UnboundLocalError. -/
inductive PyExc where
  | unboundLocalError (name : String) : PyExc
deriving DecidableEq

/-- The text bam_to_sam (bam.py lines 157-197) writes to the output artifact
on its successful path, that is, with a sorting mode other than NONE.  The
final write (line 197) reads the local variable lines, which is assigned
only inside the sorting branch (lines 177 and 194), so with sorting NONE
the source raises UnboundLocalError instead of writing anything; that error
path is embedded separately as bamToSamRun below.  The comparator calls the
converter only with NAME or COORDINATE sorting, where this function is
exactly the written text. -/
def bam_to_sam (input_bam : BamFile) (headers : Bool) (min_mapq : Option Nat)
    (sorting : Sorting) : String :=
  let sam := reSubUnset (pyRstrip (input_bam.view headers (effQ min_mapq)))
  let lines := splitlinesKeepEnds sam
  let start := if headers then firstNonHeader lines else 0
  let sortedSam := runSort sorting (joinAll (lines.drop start))
  joinAll (lines.take start ++ [sortedSam])

/-- Full embedding of bam_to_sam (bam.py lines 157-197) including its error
path: the converted text is normalized (lines 167-174); when sorting is not
NONE the local variable lines is assigned, the data block is externally
sorted and the final write succeeds (lines 176-197); when sorting is NONE the
variable lines is never assigned and the final write at line 197 raises
UnboundLocalError over the name lines, so no text is produced. -/
def bamToSamRun (input_bam : BamFile) (headers : Bool) (min_mapq : Option Nat)
    (sorting : Sorting) : Except PyExc String :=
  if sorting = Sorting.NONE then Except.error (PyExc.unboundLocalError "lines")
  else Except.ok (bam_to_sam input_bam headers min_mapq sorting)

/-- Parse one element of a cut -f field list: a single 1-based index or an
inclusive low-high range (the only forms the code uses). -/
def parseCutRange (s : String) : Nat × Nat :=
  match splitCh '-' s with
  | [a, b] => (digitsVal a.data 0, digitsVal b.data 0)
  | [a] => (digitsVal a.data 0, digitsVal a.data 0)
  | _ => (0, 0)

/-- Parse a cut -f field list such as the two column constants of bam.py. -/
def parseCutSpec (s : String) : List (Nat × Nat) :=
  (splitCh ',' s).map parseCutRange

/-- Is the 1-based field index selected by the field list? -/
def cutSelected : List (Nat × Nat) → Nat → Bool
  | [], _ => false
  | r :: rs, i => (decide (r.1 ≤ i) && decide (i ≤ r.2)) || cutSelected rs i

/-- Fields kept by cut -f, walking the tab-separated fields with their
1-based positions. -/
def selectFields (spec : List (Nat × Nat)) : Nat → List String → List String
  | _, [] => []
  | i, f :: fs =>
    if cutSelected spec i then f :: selectFields spec (i + 1) fs
    else selectFields spec (i + 1) fs

/-- GNU cut -f on one line: tab-delimited fields, selected in ascending
position order, joined by tabs; a line containing no delimiter is passed
through whole. -/
def cutLine (spec : List (Nat × Nat)) (line : String) : String :=
  let fs := splitCh '\t' line
  if fs.length ≤ 1 then line
  else joinWith "\t" (selectFields spec 1 fs)

/-- Lines written by cat file | cut -f columns: one output line per input
line, in input order (bam.py lines 202-203). -/
def cutFileLines (spec : List (Nat × Nat)) (t : String) : List String :=
  (fileLines t).map (cutLine spec)

/-- Modelled from the spec: the bounded line diff primitive of
pytest_wdl.data_types (spec section 4.4) counts the lines that differ between
the two artifacts, comparing lines pairwise by index; a line present in only
one file counts as differing. -/
def diffCount : List String → List String → Nat
  | [], ys => ys.length
  | _ :: xs, [] => 1 + diffCount xs []
  | x :: xs, y :: ys => (if x = y then 0 else 1) + diffCount xs ys

/-- Modelled from the spec: diff_default of pytest_wdl.data_types, the
default whole-line diff of two text files. -/
def diff_default (t1 t2 : String) : Nat :=
  diffCount (fileLines t1) (fileLines t2)

/-- Assertion failures raised by the comparator: a bounded-diff failure
carrying the diff detail, or a failure re-raised with a message and the
underlying failure attached as cause. -/
inductive PyErr where
  | diffExceeds (count allowed : Nat) : PyErr
  | wrapped (msg : String) (cause : PyErr) : PyErr
deriving DecidableEq

/-- Modelled from the spec: assert_text_files_equal of pytest_wdl.data_types
raises when the diff count of the two texts exceeds the tolerance
(spec section 4.4); otherwise it returns normally. -/
def assert_text_files_equal (t1 t2 : String) (allowed_diff_lines : Nat)
    (diff_fn : String → String → Nat) : Except PyErr Unit :=
  let n := diff_fn t1 t2
  if n ≤ allowed_diff_lines then Except.ok ()
  else Except.error (PyErr.diffExceeds n allowed_diff_lines)

/-- bam.py line 39. -/
def INVARIATE_COLUMNS : String := "1,2,5,10,11"

/-- bam.py line 40. -/
def ALL_COLUMNS : String := "1-11"

/-- diff_bam_columns (bam.py lines 200-209): project both files with
cut -f columns and apply the default diff to the projections. -/
def diff_bam_columns (t1 t2 : String) (columns : String) : Nat :=
  diffCount (cutFileLines (parseCutSpec columns) t1)
    (cutFileLines (parseCutSpec columns) t2)

/-- assert_bam_files_equal (bam.py lines 81-154). The compare_tag_columns
argument is kept as the Python runtime value (None, False or True) because
the calling method passes the result of an or-expression that may be None;
the code only tests its truthiness. -/
def assert_bam_files_equal (file1 file2 : BamFile) (allowed_diff_lines : Nat)
    (min_mapq : Nat) (compare_tag_columns : Option Bool) : Except PyErr Unit :=
  let cmp1a := bam_to_sam file1 false none Sorting.NAME
  let cmp2a := bam_to_sam file2 false none Sorting.NAME
  match assert_text_files_equal cmp1a cmp2a allowed_diff_lines
      (fun a b => diff_bam_columns a b INVARIATE_COLUMNS) with
  | Except.error e => Except.error e
  | Except.ok _ =>
    let cmp1b := bam_to_sam file1 true (some min_mapq) Sorting.COORDINATE
    let cmp2b := bam_to_sam file2 true (some min_mapq) Sorting.COORDINATE
    let diff_fn := if compare_tag_columns = some true then diff_default
      else fun a b => diff_bam_columns a b ALL_COLUMNS
    assert_text_files_equal cmp1b cmp2b allowed_diff_lines diff_fn

/-- The compare_opts dictionary entries the BAM comparator reads; a none
field models an absent key. -/
structure CompareOpts where
  allowed_diff_lines : Option Nat
  min_mapq : Option Nat
  compare_tag_columns : Option Bool

/-- A BAM data file: its path, its content (through the converter), and its
compare options. -/
structure BamDataFile where
  path : String
  bam : BamFile
  compare_opts : CompareOpts

/-- BamDataFile._get_min_mapq (bam.py lines 68-72). -/
def BamDataFile._get_min_mapq (self : BamDataFile) (other_opts : CompareOpts) : Nat :=
  max (self.compare_opts.min_mapq.getD 0) (other_opts.min_mapq.getD 0)

/-- BamDataFile._get_compare_tag_columns (bam.py lines 74-78): the Python
or-expression returns its first operand when truthy and its second operand
otherwise. -/
def BamDataFile._get_compare_tag_columns (self : BamDataFile)
    (other_opts : CompareOpts) : Option Bool :=
  if self.compare_opts.compare_tag_columns = some true then
    self.compare_opts.compare_tag_columns
  else other_opts.compare_tag_columns

/-- Modelled from the spec: DataFile._get_allowed_diff_lines of
pytest_wdl.data_types (base class, outside the sources at hand); the
allowed_diff_lines option is suppliable independently per side and option
resolution between the two sides is union/max (spec sections 3 and 6). -/
def BamDataFile._get_allowed_diff_lines (self : BamDataFile)
    (other_opts : CompareOpts) : Nat :=
  max (self.compare_opts.allowed_diff_lines.getD 0)
    (other_opts.allowed_diff_lines.getD 0)

/-- BamDataFile._assert_contents_equal (bam.py lines 54-66): run the
two-pass comparison with resolved options; re-raise any assertion failure
with a message naming both original paths and the underlying failure as
cause. -/
def BamDataFile._assert_contents_equal (self : BamDataFile) (other_path : String)
    (other_bam : BamFile) (other_opts : CompareOpts) : Except PyErr Unit :=
  match assert_bam_files_equal self.bam other_bam
      (self._get_allowed_diff_lines other_opts)
      (self._get_min_mapq other_opts)
      (self._get_compare_tag_columns other_opts) with
  | Except.ok _ => Except.ok ()
  | Except.error err =>
    Except.error (PyErr.wrapped
      ("BAM files are not equal: " ++ self.path ++ " != " ++ other_path) err)

/-- Pass 1 as the spec describes it: convert both files with headers false,
NAME sorting and no quality filter, project both conversions onto the
invariant columns 1,2,5,10,11, and count differing lines. -/
def specPass1Diff (f1 f2 : BamFile) : Nat :=
  diff_bam_columns (bam_to_sam f1 false none Sorting.NAME)
    (bam_to_sam f2 false none Sorting.NAME) INVARIATE_COLUMNS

/-- Pass 2 as the spec describes it: convert both files with headers true,
COORDINATE sorting and the resolved min_mapq, then count differing lines of
the projections onto columns 1-11 when compare_tag_columns is not true, of
the raw converted texts otherwise. -/
def specPass2Diff (f1 f2 : BamFile) (q : Nat) (ctc : Option Bool) : Nat :=
  if ctc = some true then
    diff_default (bam_to_sam f1 true (some q) Sorting.COORDINATE)
      (bam_to_sam f2 true (some q) Sorting.COORDINATE)
  else
    diff_bam_columns (bam_to_sam f1 true (some q) Sorting.COORDINATE)
      (bam_to_sam f2 true (some q) Sorting.COORDINATE) ALL_COLUMNS

theorem assert_text_ok_iff {t1 t2 : String} {al : Nat} {fn : String → String → Nat} :
    assert_text_files_equal t1 t2 al fn = Except.ok () ↔ fn t1 t2 ≤ al := by
  unfold assert_text_files_equal
  by_cases h : fn t1 t2 ≤ al <;> simp [h]

theorem assert_text_error_shape {t1 t2 : String} {al : Nat} {fn : String → String → Nat}
    {e : PyErr} (h : assert_text_files_equal t1 t2 al fn = Except.error e) :
    ∃ n, e = PyErr.diffExceeds n al ∧ al < n := by
  unfold assert_text_files_equal at h
  by_cases hle : fn t1 t2 ≤ al
  · simp [hle] at h
  · simp [hle] at h
    exact ⟨fn t1 t2, h.symm, by omega⟩

theorem assertBamOkIff (f1 f2 : BamFile) (a q : Nat) (ctc : Option Bool) :
    assert_bam_files_equal f1 f2 a q ctc = Except.ok () ↔
      (specPass1Diff f1 f2 ≤ a ∧ specPass2Diff f1 f2 q ctc ≤ a) := by
  simp only [assert_bam_files_equal]
  cases hm : assert_text_files_equal (bam_to_sam f1 false none Sorting.NAME)
      (bam_to_sam f2 false none Sorting.NAME) a
      (fun x y => diff_bam_columns x y INVARIATE_COLUMNS) with
  | ok u =>
    cases u
    have h1 : diff_bam_columns (bam_to_sam f1 false none Sorting.NAME)
        (bam_to_sam f2 false none Sorting.NAME) INVARIATE_COLUMNS ≤ a :=
      assert_text_ok_iff.mp hm
    by_cases hc : ctc = some true <;>
      simp [hc, assert_text_ok_iff, h1, specPass1Diff, specPass2Diff]
  | error e1 =>
    have h1 : ¬ diff_bam_columns (bam_to_sam f1 false none Sorting.NAME)
        (bam_to_sam f2 false none Sorting.NAME) INVARIATE_COLUMNS ≤ a := by
      intro hle
      have hok : assert_text_files_equal (bam_to_sam f1 false none Sorting.NAME)
          (bam_to_sam f2 false none Sorting.NAME) a
          (fun x y => diff_bam_columns x y INVARIATE_COLUMNS) = Except.ok () :=
        assert_text_ok_iff.mpr hle
      rw [hok] at hm
      exact Except.noConfusion hm
    simp [specPass1Diff, h1]

theorem assert_bam_error_shape {f1 f2 : BamFile} {a q : Nat} {ctc : Option Bool} {e : PyErr}
    (h : assert_bam_files_equal f1 f2 a q ctc = Except.error e) :
    ∃ n, e = PyErr.diffExceeds n a ∧ a < n := by
  simp only [assert_bam_files_equal] at h
  revert h
  cases hm : assert_text_files_equal (bam_to_sam f1 false none Sorting.NAME)
      (bam_to_sam f2 false none Sorting.NAME) a
      (fun x y => diff_bam_columns x y INVARIATE_COLUMNS) with
  | error e1 =>
    intro h
    have he : e1 = e := by simpa using h
    subst he
    exact assert_text_error_shape hm
  | ok u =>
    intro h
    exact assert_text_error_shape h

/-- C1: assert_bam_files_equal performs exactly the two passes of the spec:
pass 1 converts both files with headers false, NAME sorting and no quality
filter and diffs the projections onto columns 1,2,5,10,11; pass 2 converts
both files with headers true, COORDINATE sorting and the resolved min_mapq
and diffs the projections onto columns 1-11 when compare_tag_columns is not
true, the raw texts otherwise; the comparison succeeds iff both passes
succeed within the tolerance. -/
theorem assert_bam_two_pass_structure (f1 f2 : BamFile) (a q : Nat) (ctc : Option Bool) :
    assert_bam_files_equal f1 f2 a q ctc = Except.ok () ↔
      (specPass1Diff f1 f2 ≤ a ∧ specPass2Diff f1 f2 q ctc ≤ a) :=
  assertBamOkIff f1 f2 a q ctc

/-- C1 witness: the two-pass characterization instantiated on a concrete file
compared with itself. -/
theorem assert_bam_two_pass_structure_witness :
    assert_bam_files_equal ⟨fun _ _ => "r1\t0\tc\t1\t30"⟩ ⟨fun _ _ => "r1\t0\tc\t1\t30"⟩
        0 0 none = Except.ok () :=
  (assert_bam_two_pass_structure ⟨fun _ _ => "r1\t0\tc\t1\t30"⟩
    ⟨fun _ _ => "r1\t0\tc\t1\t30"⟩ 0 0 none).mpr ⟨by decide, by decide⟩

/-- C2: the tolerance is a per-pass budget: when each of the two passes has
exactly allowed_diff_lines differing lines (hence up to twice that total),
the comparison still succeeds. -/
theorem allowed_diff_lines_per_pass (f1 f2 : BamFile) (a q : Nat) (ctc : Option Bool)
    (h1 : specPass1Diff f1 f2 = a) (h2 : specPass2Diff f1 f2 q ctc = a) :
    assert_bam_files_equal f1 f2 a q ctc = Except.ok () :=
  (assertBamOkIff f1 f2 a q ctc).mpr ⟨Nat.le_of_eq h1, Nat.le_of_eq h2⟩

/-- C2 witness: per-pass tolerance applied at a concrete pair whose passes
each use exactly the budget. -/
theorem allowed_diff_lines_per_pass_witness :
    specPass1Diff ⟨fun _ _ => "r1\t9\tc\t1\t30"⟩ ⟨fun _ _ => "r2\t9\tc\t1\t30"⟩ = 1 ∧
    specPass2Diff ⟨fun _ _ => "r1\t9\tc\t1\t30"⟩ ⟨fun _ _ => "r2\t9\tc\t1\t30"⟩ 0 none = 1 ∧
    assert_bam_files_equal ⟨fun _ _ => "r1\t9\tc\t1\t30"⟩ ⟨fun _ _ => "r2\t9\tc\t1\t30"⟩
        1 0 none = Except.ok () :=
  ⟨by decide, by decide,
    allowed_diff_lines_per_pass ⟨fun _ _ => "r1\t9\tc\t1\t30"⟩ ⟨fun _ _ => "r2\t9\tc\t1\t30"⟩
      1 0 none (by decide) (by decide)⟩

/-- C5: the effective min_mapq resolved between the two sides is the maximum
of the two requested values, each defaulting to 0 when absent, and the
effective compare_tag_columns is truthy exactly when either side requested
true: resolution is union/max, never intersection. -/
theorem compare_opts_resolution (self : BamDataFile) (other_opts : CompareOpts) :
    self._get_min_mapq other_opts =
      max (self.compare_opts.min_mapq.getD 0) (other_opts.min_mapq.getD 0) ∧
    (self._get_compare_tag_columns other_opts = some true ↔
      (self.compare_opts.compare_tag_columns = some true ∨
        other_opts.compare_tag_columns = some true)) := by
  refine ⟨rfl, ?_, ?_⟩
  · intro h
    by_cases hs : self.compare_opts.compare_tag_columns = some true
    · exact Or.inl hs
    · right
      simpa [BamDataFile._get_compare_tag_columns, hs] using h
  · intro h
    rcases h with h | h
    · simp [BamDataFile._get_compare_tag_columns, h]
    · by_cases hs : self.compare_opts.compare_tag_columns = some true
      · simp [BamDataFile._get_compare_tag_columns, hs]
      · simpa [BamDataFile._get_compare_tag_columns, hs] using h

/-- C5 witness: sides requesting min_mapq 10 and 20 resolve to 20, and a
compare_tag_columns requested true on one side resolves truthy. -/
theorem compare_opts_resolution_witness :
    BamDataFile._get_min_mapq ⟨"f1", ⟨fun _ _ => ""⟩, ⟨none, some 10, none⟩⟩
        ⟨none, some 20, some true⟩ = 20 ∧
    BamDataFile._get_compare_tag_columns ⟨"f1", ⟨fun _ _ => ""⟩, ⟨none, some 10, none⟩⟩
        ⟨none, some 20, some true⟩ = some true :=
  ⟨((compare_opts_resolution ⟨"f1", ⟨fun _ _ => ""⟩, ⟨none, some 10, none⟩⟩
      ⟨none, some 20, some true⟩).1).trans (by decide),
   ((compare_opts_resolution ⟨"f1", ⟨fun _ _ => ""⟩, ⟨none, some 10, none⟩⟩
      ⟨none, some 20, some true⟩).2).mpr (Or.inr rfl)⟩

theorem assert_bam_ctc_falsy (f1 f2 : BamFile) (a q : Nat) (c1 c2 : Option Bool)
    (h1 : c1 ≠ some true) (h2 : c2 ≠ some true) :
    assert_bam_files_equal f1 f2 a q c1 = assert_bam_files_equal f1 f2 a q c2 := by
  simp only [assert_bam_files_equal, if_neg h1, if_neg h2]

/-- C10: when neither side's options contain the compare_tag_columns key,
the resolved value is the Python None, not False; it is falsy, so the second
pass projects both converted outputs to columns 1-11 exactly as an explicit
false would, excluding tag columns from the comparison by default. -/
theorem compare_tag_columns_default (self : BamDataFile) (other_opts : CompareOpts)
    (h1 : self.compare_opts.compare_tag_columns = none)
    (h2 : other_opts.compare_tag_columns = none) :
    self._get_compare_tag_columns other_opts = none ∧
    self._get_compare_tag_columns other_opts ≠ some false ∧
    ∀ f1 f2 a q,
      assert_bam_files_equal f1 f2 a q (self._get_compare_tag_columns other_opts) =
        assert_bam_files_equal f1 f2 a q (some false) := by
  have hres : self._get_compare_tag_columns other_opts = none := by
    simp [BamDataFile._get_compare_tag_columns, h1, h2]
  refine ⟨hres, by rw [hres]; simp, fun f1 f2 a q => ?_⟩
  exact assert_bam_ctc_falsy f1 f2 a q _ _ (by rw [hres]; simp) (by simp)

/-- C10 witness: both sides lacking the key resolve to the Python None. -/
theorem compare_tag_columns_default_witness :
    BamDataFile._get_compare_tag_columns ⟨"f1", ⟨fun _ _ => ""⟩, ⟨none, none, none⟩⟩
        ⟨none, none, none⟩ = none :=
  (compare_tag_columns_default ⟨"f1", ⟨fun _ _ => ""⟩, ⟨none, none, none⟩⟩
    ⟨none, none, none⟩ rfl rfl).1

/-- C9: the public comparison entry point returns normally iff the two files
are equal under the two-pass policy with the resolved options; on failure it
raises an assertion failure whose message names both original input paths
(not the transient artifacts) and whose cause is the underlying per-pass
bounded-diff failure. -/
theorem assert_contents_equal_contract (self : BamDataFile) (other_path : String)
    (other_bam : BamFile) (other_opts : CompareOpts) :
    (self._assert_contents_equal other_path other_bam other_opts = Except.ok () ↔
      (specPass1Diff self.bam other_bam ≤ self._get_allowed_diff_lines other_opts ∧
        specPass2Diff self.bam other_bam (self._get_min_mapq other_opts)
          (self._get_compare_tag_columns other_opts) ≤
          self._get_allowed_diff_lines other_opts)) ∧
    ∀ e, self._assert_contents_equal other_path other_bam other_opts = Except.error e →
      ∃ n, e = PyErr.wrapped
          ("BAM files are not equal: " ++ self.path ++ " != " ++ other_path)
          (PyErr.diffExceeds n (self._get_allowed_diff_lines other_opts)) ∧
        self._get_allowed_diff_lines other_opts < n := by
  constructor
  · unfold BamDataFile._assert_contents_equal
    cases hm : assert_bam_files_equal self.bam other_bam
        (self._get_allowed_diff_lines other_opts) (self._get_min_mapq other_opts)
        (self._get_compare_tag_columns other_opts) with
    | ok u =>
      cases u
      exact iff_of_true rfl ((assertBamOkIff _ _ _ _ _).mp hm)
    | error e1 =>
      refine iff_of_false (fun h => Except.noConfusion h) ?_
      intro hp
      have hok := (assertBamOkIff self.bam other_bam
        (self._get_allowed_diff_lines other_opts) (self._get_min_mapq other_opts)
        (self._get_compare_tag_columns other_opts)).mpr hp
      rw [hok] at hm
      exact Except.noConfusion hm
  · intro e h
    unfold BamDataFile._assert_contents_equal at h
    revert h
    cases hm : assert_bam_files_equal self.bam other_bam
        (self._get_allowed_diff_lines other_opts) (self._get_min_mapq other_opts)
        (self._get_compare_tag_columns other_opts) with
    | ok u => intro h; exact absurd h (fun h => Except.noConfusion h)
    | error e1 =>
      intro h
      obtain ⟨n, hn, hlt⟩ := assert_bam_error_shape hm
      have he : PyErr.wrapped
          ("BAM files are not equal: " ++ self.path ++ " != " ++ other_path) e1 = e := by
        simpa using h
      refine ⟨n, ?_, hlt⟩
      rw [← he, hn]

/-- C9 witness: a concrete unequal pair raises the wrapped failure carrying
both original paths with the bounded-diff failure as cause. -/
theorem assert_contents_equal_contract_witness :
    ∃ n, PyErr.wrapped "BAM files are not equal: f1.bam != f2.bam" (PyErr.diffExceeds 1 0) =
        PyErr.wrapped ("BAM files are not equal: " ++ "f1.bam" ++ " != " ++ "f2.bam")
          (PyErr.diffExceeds n
            (BamDataFile._get_allowed_diff_lines
              ⟨"f1.bam", ⟨fun _ _ => "r1\t0\tc\t1\t30"⟩, ⟨none, none, none⟩⟩
              ⟨none, none, none⟩)) ∧
      BamDataFile._get_allowed_diff_lines
          ⟨"f1.bam", ⟨fun _ _ => "r1\t0\tc\t1\t30"⟩, ⟨none, none, none⟩⟩
          ⟨none, none, none⟩ < n :=
  (assert_contents_equal_contract
      ⟨"f1.bam", ⟨fun _ _ => "r1\t0\tc\t1\t30"⟩, ⟨none, none, none⟩⟩ "f2.bam"
      ⟨fun _ _ => "r2\t0\tc\t1\t30"⟩ ⟨none, none, none⟩).2
    (PyErr.wrapped "BAM files are not equal: f1.bam != f2.bam" (PyErr.diffExceeds 1 0)) rfl

/-- Two lines that agree on their first eleven tab-separated fields and, when
either has no delimiter at all, agree entirely: they differ at most in the
value of tag columns (fields 12 and beyond). -/
def eqExceptTagsB (l1 l2 : String) : Bool :=
  (splitCh '\t' l1).take 11 == (splitCh '\t' l2).take 11 &&
    (decide (2 ≤ (splitCh '\t' l1).length) || l1 == l2) &&
    (decide (2 ≤ (splitCh '\t' l2).length) || l1 == l2)

/-- Pointwise equal-except-tag-columns on two equal-length line lists. -/
def linesEqExceptTags : List String → List String → Bool
  | [], [] => true
  | x :: xs, y :: ys => eqExceptTagsB x y && linesEqExceptTags xs ys
  | _, _ => false

theorem selectFields_none (spec : List (Nat × Nat)) :
    ∀ i xs, (∀ j, i ≤ j → cutSelected spec j = false) → selectFields spec i xs = [] := by
  intro i xs
  induction xs generalizing i with
  | nil => intro _; rfl
  | cons x xs ih =>
    intro h
    simp only [selectFields, h i (Nat.le_refl i), Bool.false_eq_true, if_false]
    exact ih (i + 1) (fun j hj => h j (by omega))

theorem selectFields_take_eq (spec : List (Nat × Nat)) (bound : Nat)
    (hb : ∀ j, cutSelected spec j = true → j ≤ bound) :
    ∀ xs ys i, xs.take (bound + 1 - i) = ys.take (bound + 1 - i) →
      selectFields spec i xs = selectFields spec i ys := by
  intro xs
  induction xs with
  | nil =>
    intro ys i h
    by_cases hk : bound + 1 - i = 0
    · have hnone : ∀ j, i ≤ j → cutSelected spec j = false := by
        intro j hj
        by_contra hc
        simp only [Bool.not_eq_false] at hc
        have := hb j hc
        omega
      rw [selectFields_none spec i _ hnone, selectFields_none spec i _ hnone]
    · rw [List.take_nil] at h
      have : ys = [] := by
        rcases (List.take_eq_nil_iff).mp h.symm with h0 | h0
        · exact absurd h0 hk
        · exact h0
      rw [this]
  | cons x xs ih =>
    intro ys i h
    by_cases hk : bound + 1 - i = 0
    · have hnone : ∀ j, i ≤ j → cutSelected spec j = false := by
        intro j hj
        by_contra hc
        simp only [Bool.not_eq_false] at hc
        have := hb j hc
        omega
      rw [selectFields_none spec i _ hnone, selectFields_none spec i _ hnone]
    · match ys, h with
      | [], h =>
        rw [List.take_nil] at h
        rw [show bound + 1 - i = (bound + 1 - i - 1) + 1 from by omega] at h
        simp only [List.take_succ_cons] at h
        exact absurd h (by simp)
      | y :: ys', h =>
        rw [show bound + 1 - i = (bound + 1 - (i + 1)) + 1 from by omega] at h
        simp only [List.take_succ_cons, List.cons.injEq] at h
        obtain ⟨hxy, ht⟩ := h
        simp only [selectFields]
        by_cases hs : cutSelected spec i = true
        · rw [if_pos hs, if_pos hs, hxy, ih ys' (i + 1) ht]
        · rw [if_neg hs, if_neg hs, ih ys' (i + 1) ht]

theorem cutLine_eq_of_eqExceptTags {spec : List (Nat × Nat)}
    (hb : ∀ j, cutSelected spec j = true → j ≤ 11) {l1 l2 : String}
    (h : eqExceptTagsB l1 l2 = true) : cutLine spec l1 = cutLine spec l2 := by
  unfold eqExceptTagsB at h
  simp only [Bool.and_eq_true, Bool.or_eq_true, beq_iff_eq, decide_eq_true_eq] at h
  obtain ⟨⟨ht, hl1⟩, hl2⟩ := h
  by_cases ha1 : (splitCh '\t' l1).length ≤ 1
  · have hl : l1 = l2 := by
      rcases hl1 with h2 | h2
      · omega
      · exact h2
    rw [hl]
  · by_cases ha2 : (splitCh '\t' l2).length ≤ 1
    · have hl : l1 = l2 := by
        rcases hl2 with h2 | h2
        · omega
        · exact h2
      rw [hl]
    · unfold cutLine
      rw [if_neg ha1, if_neg ha2]
      congr 1
      refine selectFields_take_eq spec 11 hb _ _ 1 ?_
      simpa using ht

theorem cutMap_eq_of_linesEq {spec : List (Nat × Nat)}
    (hb : ∀ j, cutSelected spec j = true → j ≤ 11) :
    ∀ L1 L2, linesEqExceptTags L1 L2 = true →
      L1.map (cutLine spec) = L2.map (cutLine spec) := by
  intro L1
  induction L1 with
  | nil =>
    intro L2 h
    cases L2 with
    | nil => rfl
    | cons y ys => exact absurd h (by simp [linesEqExceptTags])
  | cons x xs ih =>
    intro L2 h
    cases L2 with
    | nil => exact absurd h (by simp [linesEqExceptTags])
    | cons y ys =>
      simp only [linesEqExceptTags, Bool.and_eq_true] at h
      simp only [List.map_cons]
      rw [cutLine_eq_of_eqExceptTags hb h.1, ih ys h.2]

theorem invariate_bounded :
    ∀ j, cutSelected (parseCutSpec INVARIATE_COLUMNS) j = true → j ≤ 11 := by
  intro j h
  have hs : parseCutSpec INVARIATE_COLUMNS =
      [(1, 1), (2, 2), (5, 5), (10, 10), (11, 11)] := rfl
  rw [hs] at h
  simp [cutSelected] at h
  omega

theorem allcols_bounded :
    ∀ j, cutSelected (parseCutSpec ALL_COLUMNS) j = true → j ≤ 11 := by
  intro j h
  have hs : parseCutSpec ALL_COLUMNS = [(1, 11)] := rfl
  rw [hs] at h
  simp [cutSelected] at h
  omega

theorem diffCount_self : ∀ L, diffCount L L = 0 := by
  intro L
  induction L with
  | nil => rfl
  | cons x xs ih => simp [diffCount, ih]

/-- C8: for two files whose converted texts are identical except in the
value of tag columns (fields 12 and beyond) on more than allowed_diff_lines
lines, the comparison succeeds when the resolved compare_tag_columns is
false and fails when it is true. -/
theorem tag_columns_gate (f1 f2 : BamFile) (a q : Nat)
    (h1 : linesEqExceptTags (fileLines (bam_to_sam f1 false none Sorting.NAME))
        (fileLines (bam_to_sam f2 false none Sorting.NAME)) = true)
    (h2 : linesEqExceptTags (fileLines (bam_to_sam f1 true (some q) Sorting.COORDINATE))
        (fileLines (bam_to_sam f2 true (some q) Sorting.COORDINATE)) = true)
    (h3 : a < diff_default (bam_to_sam f1 true (some q) Sorting.COORDINATE)
        (bam_to_sam f2 true (some q) Sorting.COORDINATE)) :
    assert_bam_files_equal f1 f2 a q (some false) = Except.ok () ∧
    assert_bam_files_equal f1 f2 a q (some true) ≠ Except.ok () := by
  have hp1 : specPass1Diff f1 f2 = 0 := by
    unfold specPass1Diff diff_bam_columns cutFileLines
    rw [cutMap_eq_of_linesEq invariate_bounded _ _ h1]
    exact diffCount_self _
  have hp2 : specPass2Diff f1 f2 q (some false) = 0 := by
    unfold specPass2Diff
    rw [if_neg (by simp)]
    unfold diff_bam_columns cutFileLines
    rw [cutMap_eq_of_linesEq allcols_bounded _ _ h2]
    exact diffCount_self _
  constructor
  · exact (assertBamOkIff f1 f2 a q (some false)).mpr ⟨by omega, by omega⟩
  · intro hok
    have hch := (assertBamOkIff f1 f2 a q (some true)).mp hok
    have h2' : specPass2Diff f1 f2 q (some true) ≤ a := hch.2
    unfold specPass2Diff at h2'
    rw [if_pos rfl] at h2'
    omega

/-- C8 witness: a concrete pair identical except in an NM tag value passes
with compare_tag_columns false and fails with compare_tag_columns true. -/
theorem tag_columns_gate_witness :
    assert_bam_files_equal
        ⟨fun h _ => if h then "@HD\nr1\t0\tc\t1\t30\t1M\t=\t0\t0\tA\tB\tNM:i:1"
          else "r1\t0\tc\t1\t30\t1M\t=\t0\t0\tA\tB\tNM:i:1"⟩
        ⟨fun h _ => if h then "@HD\nr1\t0\tc\t1\t30\t1M\t=\t0\t0\tA\tB\tNM:i:2"
          else "r1\t0\tc\t1\t30\t1M\t=\t0\t0\tA\tB\tNM:i:2"⟩ 0 0 (some false) =
      Except.ok () ∧
    assert_bam_files_equal
        ⟨fun h _ => if h then "@HD\nr1\t0\tc\t1\t30\t1M\t=\t0\t0\tA\tB\tNM:i:1"
          else "r1\t0\tc\t1\t30\t1M\t=\t0\t0\tA\tB\tNM:i:1"⟩
        ⟨fun h _ => if h then "@HD\nr1\t0\tc\t1\t30\t1M\t=\t0\t0\tA\tB\tNM:i:2"
          else "r1\t0\tc\t1\t30\t1M\t=\t0\t0\tA\tB\tNM:i:2"⟩ 0 0 (some true) ≠
      Except.ok () :=
  tag_columns_gate
    ⟨fun h _ => if h then "@HD\nr1\t0\tc\t1\t30\t1M\t=\t0\t0\tA\tB\tNM:i:1"
      else "r1\t0\tc\t1\t30\t1M\t=\t0\t0\tA\tB\tNM:i:1"⟩
    ⟨fun h _ => if h then "@HD\nr1\t0\tc\t1\t30\t1M\t=\t0\t0\tA\tB\tNM:i:2"
      else "r1\t0\tc\t1\t30\t1M\t=\t0\t0\tA\tB\tNM:i:2"⟩ 0 0
    (by decide) (by decide) (by decide)

/-- The keepends lines of the normalized converted text with headers on. -/
def convLines (f : BamFile) (q : Option Nat) : List String :=
  splitlinesKeepEnds (normalizedText f true q)

/-- The number of leading header lines of the converted text: the spec's N. -/
def headerCount (f : BamFile) (q : Option Nat) : Nat :=
  ((convLines f q).takeWhile (fun l => isHeaderLine l)).length

theorem splitKEAux_cons_nl (acc rest : List Char) :
    splitKEAux acc ('\n' :: rest) =
      (⟨('\n' :: acc).reverse⟩ : String) :: splitKEAux [] rest := rfl

theorem splitKEAux_cons_other {c : Char} (h : c ≠ '\n') (acc rest : List Char) :
    splitKEAux acc (c :: rest) = splitKEAux (c :: acc) rest := by
  simp only [splitKEAux]
  rw [if_neg h]

theorem firstNonHeaderAux_eq :
    ∀ (lines : List String) (k : Nat), (∃ l ∈ lines, isHeaderLine l = false) →
      firstNonHeaderAux k lines =
        k + (lines.takeWhile (fun l => isHeaderLine l)).length := by
  intro lines
  induction lines with
  | nil =>
    intro k h
    simp at h
  | cons l ls ih =>
    intro k h
    by_cases hl : isHeaderLine l = true
    · have hex : ∃ x ∈ ls, isHeaderLine x = false := by
        rcases h with ⟨x, hx, hfx⟩
        rcases List.mem_cons.mp hx with hx | hx
        · subst hx; rw [hl] at hfx; exact absurd hfx (by simp)
        · exact ⟨x, hx, hfx⟩
      simp only [firstNonHeaderAux, hl, if_true]
      rw [ih (k + 1) hex]
      simp only [List.takeWhile_cons, hl, if_true, List.length_cons]
      omega
    · simp only [Bool.not_eq_true] at hl
      simp only [firstNonHeaderAux, hl, Bool.false_eq_true, if_false,
        List.takeWhile_cons, List.length_nil]
      omega

theorem takeWhile_length_lt {p : String → Bool} :
    ∀ L : List String, (∃ l ∈ L, p l = false) → (L.takeWhile p).length < L.length := by
  intro L
  induction L with
  | nil => intro h; simp at h
  | cons l ls ih =>
    intro h
    by_cases hl : p l = true
    · have hex : ∃ x ∈ ls, p x = false := by
        rcases h with ⟨x, hx, hfx⟩
        rcases List.mem_cons.mp hx with hx | hx
        · subst hx; rw [hl] at hfx; exact absurd hfx (by simp)
        · exact ⟨x, hx, hfx⟩
      simp only [List.takeWhile_cons, hl, if_true, List.length_cons]
      exact Nat.succ_lt_succ (ih hex)
    · simp only [Bool.not_eq_true] at hl
      simp only [List.takeWhile_cons, hl, Bool.false_eq_true, if_false, List.length_nil,
        List.length_cons]
      omega

theorem take_takeWhile_length {p : String → Bool} :
    ∀ L : List String, L.take ((L.takeWhile p).length) = L.takeWhile p := by
  intro L
  induction L with
  | nil => rfl
  | cons l ls ih =>
    by_cases hl : p l = true
    · simp only [List.takeWhile_cons, hl, if_true, List.length_cons, List.take_succ_cons, ih]
    · simp only [Bool.not_eq_true] at hl
      simp only [List.takeWhile_cons, hl, Bool.false_eq_true, if_false, List.length_nil,
        List.take_zero]

/-- A proper keepends line: nonempty, ends with the newline, and contains no
other newline. -/
def properLine (l : String) : Prop :=
  l.data ≠ [] ∧ l.data.getLast? = some '\n' ∧ ∀ c ∈ l.data.dropLast, c ≠ '\n'

theorem dropLast_cons_ne {α : Type} (x : α) {R : List α} (h : R ≠ []) :
    (x :: R).dropLast = x :: R.dropLast := by
  cases R with
  | nil => exact absurd rfl h
  | cons y ys => rfl

theorem splitKEAux_proper :
    ∀ (A : List Char) (acc : List Char), (∀ c ∈ acc, c ≠ '\n') →
      ∀ l ∈ (splitKEAux acc A).dropLast, properLine l := by
  intro A
  induction A with
  | nil =>
    intro acc hacc l hl
    by_cases he : acc.isEmpty
    · simp [splitKEAux, he] at hl
    · simp [splitKEAux, he] at hl
  | cons c rest ih =>
    intro acc hacc l hl
    by_cases hc : c = '\n'
    · subst hc
      rw [splitKEAux_cons_nl] at hl
      cases hR : splitKEAux [] rest with
      | nil =>
        rw [hR] at hl
        simp at hl
      | cons r rs =>
        rw [hR] at hl
        rw [dropLast_cons_ne _ (by simp)] at hl
        rcases List.mem_cons.mp hl with hl | hl
        · subst hl
          refine ⟨by simp, ?_, ?_⟩
          · show (('\n' :: acc).reverse).getLast? = some '\n'
            rw [List.reverse_cons]
            exact List.getLast?_concat _
          · show ∀ c ∈ (('\n' :: acc).reverse).dropLast, c ≠ '\n'
            rw [List.reverse_cons, List.dropLast_concat]
            intro ch hch
            exact hacc ch (List.mem_reverse.mp hch)
        · rw [← hR] at hl
          exact ih [] (by simp) l hl
    · rw [splitKEAux_cons_other hc] at hl
      refine ih (c :: acc) ?_ l hl
      intro ch hch
      rcases List.mem_cons.mp hch with hch | hch
      · subst hch; exact hc
      · exact hacc ch hch

theorem splitKEAux_line_prefix :
    ∀ (A : List Char), A ≠ [] → A.getLast? = some '\n' →
      (∀ c ∈ A.dropLast, c ≠ '\n') →
      ∀ (B : List Char) (acc : List Char),
        splitKEAux acc (A ++ B) =
          (⟨acc.reverse ++ A⟩ : String) :: splitKEAux [] B := by
  intro A
  induction A with
  | nil => intro h; exact absurd rfl h
  | cons c A' ih =>
    intro _ hlast hint B acc
    cases A' with
    | nil =>
      have hc : c = '\n' := by simpa using hlast
      subst hc
      rw [show (['\n'] : List Char) ++ B = '\n' :: B from rfl, splitKEAux_cons_nl]
      congr 1
      apply congrArg String.mk
      rw [List.reverse_cons]
    | cons d A'' =>
      have hc : c ≠ '\n' := by
        apply hint c
        rw [dropLast_cons_ne _ (by simp)]
        simp
      rw [show (c :: d :: A'') ++ B = c :: ((d :: A'') ++ B) from rfl,
        splitKEAux_cons_other hc]
      rw [ih (by simp) (by rw [← List.getLast?_cons_cons]; exact hlast)
        (by
          intro ch hch
          apply hint ch
          rw [dropLast_cons_ne _ (by simp)]
          exact List.mem_cons_of_mem c hch) B (c :: acc)]
      congr 1
      apply congrArg String.mk
      rw [List.reverse_cons, List.append_assoc]
      rfl

theorem splitKE_line_prefix {l : String} (hp : properLine l) (X : String) :
    splitlinesKeepEnds (l ++ X) = l :: splitlinesKeepEnds X := by
  obtain ⟨h1, h2, h3⟩ := hp
  have h := splitKEAux_line_prefix l.data h1 h2 h3 X.data []
  simpa [splitlinesKeepEnds] using h

theorem splitKE_join_append :
    ∀ (L : List String), (∀ l ∈ L, properLine l) →
      ∀ B : String, splitlinesKeepEnds (joinAll L ++ B) = L ++ splitlinesKeepEnds B := by
  intro L
  induction L with
  | nil =>
    intro _ B
    rfl
  | cons l ls ih =>
    intro hp B
    have hl := hp l (by simp)
    have hstep : joinAll (l :: ls) ++ B = l ++ (joinAll ls ++ B) := by
      rw [joinAll, String.append_assoc]
    rw [hstep, splitKE_line_prefix hl (joinAll ls ++ B),
      ih (fun x hx => hp x (List.mem_cons_of_mem l hx)) B]
    rfl

theorem joinAll_concat (X : List String) (s : String) :
    joinAll (X ++ [s]) = joinAll X ++ s := by
  induction X with
  | nil =>
    show joinAll [s] = "" ++ s
    show s ++ joinAll [] = "" ++ s
    exact congrArg String.mk (List.append_nil s.data)
  | cons x xs ih =>
    show x ++ joinAll (xs ++ [s]) = x ++ joinAll xs ++ s
    rw [ih, String.append_assoc]

/-- C3 counterexample: when every line of the converted text is a header
line, the scan of bam_to_sam leaves its start variable at 0, the whole text
is handed to the external sort, and the header lines come back reordered:
the first N lines of the output are not the original header lines. -/
theorem header_preservation_counterexample :
    (∀ l ∈ convLines ⟨fun _ _ => "@SQ\tb\n@HD\ta"⟩ none, isHeaderLine l = true) ∧
    convLines ⟨fun _ _ => "@SQ\tb\n@HD\ta"⟩ none = ["@SQ\tb\n", "@HD\ta"] ∧
    bam_to_sam ⟨fun _ _ => "@SQ\tb\n@HD\ta"⟩ true none Sorting.COORDINATE =
      "@HD\ta\n@SQ\tb" ∧
    (splitlinesKeepEnds (bam_to_sam ⟨fun _ _ => "@SQ\tb\n@HD\ta"⟩ true none
        Sorting.COORDINATE)).take 2 ≠
      (convLines ⟨fun _ _ => "@SQ\tb\n@HD\ta"⟩ none).take 2 :=
  ⟨by decide, rfl, rfl, by decide⟩

/-- C3 amended: provided the converted text contains at least one non-header
line, conversion with headers on and a sorting mode other than NONE yields
output whose first N lines (N the number of leading header lines) are
exactly the original header block in original order, followed exactly by the
lines of the externally sorted data block. -/
theorem header_preservation_amended (f : BamFile) (q : Option Nat) (srt : Sorting)
    (hs : srt ≠ Sorting.NONE)
    (hx : ∃ l ∈ convLines f q, isHeaderLine l = false) :
    (splitlinesKeepEnds (bam_to_sam f true q srt)).take (headerCount f q) =
      (convLines f q).take (headerCount f q) ∧
    (convLines f q).take (headerCount f q) =
      (convLines f q).takeWhile (fun l => isHeaderLine l) ∧
    (splitlinesKeepEnds (bam_to_sam f true q srt)).drop (headerCount f q) =
      splitlinesKeepEnds
        (runSort srt (joinAll ((convLines f q).drop (headerCount f q)))) := by
  have hstart : firstNonHeader (convLines f q) = headerCount f q := by
    unfold firstNonHeader headerCount
    rw [firstNonHeaderAux_eq (convLines f q) 0 hx]
    omega
  have hNlt : headerCount f q < (convLines f q).length := takeWhile_length_lt _ hx
  have hproper : ∀ l ∈ (convLines f q).take (headerCount f q), properLine l := by
    intro l hl
    have h1 : (convLines f q).take (headerCount f q) =
        ((convLines f q).dropLast).take (headerCount f q) := by
      rw [List.dropLast_eq_take, List.take_take, min_eq_left (by omega)]
    rw [h1] at hl
    have h2 := List.take_subset (headerCount f q) ((convLines f q).dropLast) hl
    exact splitKEAux_proper (normalizedText f true q).data [] (by simp) l h2
  have h0 : bam_to_sam f true q srt =
      joinAll ((convLines f q).take (firstNonHeader (convLines f q)) ++
        [runSort srt (joinAll ((convLines f q).drop
          (firstNonHeader (convLines f q))))]) := rfl
  have hout : bam_to_sam f true q srt =
      joinAll ((convLines f q).take (headerCount f q)) ++
        runSort srt (joinAll ((convLines f q).drop (headerCount f q))) := by
    rw [h0, hstart, joinAll_concat]
  have hsplit : splitlinesKeepEnds (bam_to_sam f true q srt) =
      (convLines f q).take (headerCount f q) ++
        splitlinesKeepEnds
          (runSort srt (joinAll ((convLines f q).drop (headerCount f q)))) := by
    rw [hout]
    exact splitKE_join_append _ hproper _
  have hlen : ((convLines f q).take (headerCount f q)).length = headerCount f q := by
    rw [List.length_take]
    omega
  refine ⟨?_, ?_, ?_⟩
  · rw [hsplit, List.take_left' hlen]
  · exact take_takeWhile_length (convLines f q)
  · rw [hsplit, List.drop_left' hlen]

/-- C3 amended witness: one header line followed by one data line, sorted by
name: the header line stays first. -/
theorem header_preservation_amended_witness :
    (splitlinesKeepEnds (bam_to_sam ⟨fun _ _ => "@HD\tx\nr1\t0"⟩ true none
        Sorting.NAME)).take (headerCount ⟨fun _ _ => "@HD\tx\nr1\t0"⟩ none) =
      (convLines ⟨fun _ _ => "@HD\tx\nr1\t0"⟩ none).take
        (headerCount ⟨fun _ _ => "@HD\tx\nr1\t0"⟩ none) ∧
    (convLines ⟨fun _ _ => "@HD\tx\nr1\t0"⟩ none).take
        (headerCount ⟨fun _ _ => "@HD\tx\nr1\t0"⟩ none) =
      (convLines ⟨fun _ _ => "@HD\tx\nr1\t0"⟩ none).takeWhile
        (fun l => isHeaderLine l) ∧
    (splitlinesKeepEnds (bam_to_sam ⟨fun _ _ => "@HD\tx\nr1\t0"⟩ true none
        Sorting.NAME)).drop (headerCount ⟨fun _ _ => "@HD\tx\nr1\t0"⟩ none) =
      splitlinesKeepEnds (runSort Sorting.NAME
        (joinAll ((convLines ⟨fun _ _ => "@HD\tx\nr1\t0"⟩ none).drop
          (headerCount ⟨fun _ _ => "@HD\tx\nr1\t0"⟩ none)))) :=
  header_preservation_amended ⟨fun _ _ => "@HD\tx\nr1\t0"⟩ none Sorting.NAME
    (by decide) (by decide)

/-- C4 (code bug): for every input file, calling the converter with sorting
NONE raises UnboundLocalError over the local variable lines instead of
writing the normalized converted text: the final write at bam.py line 197
reads lines, which the source assigns only inside the sorting branch (lines
177 and 194).  The run therefore neither produces the normalized text nor
returns without error, contradicting the claim. -/
theorem bam_to_sam_none_raises (f : BamFile) (headers : Bool) (q : Option Nat) :
    bamToSamRun f headers q Sorting.NONE =
      Except.error (PyExc.unboundLocalError "lines") ∧
    bamToSamRun f headers q Sorting.NONE ≠ Except.ok (normalizedText f headers q) ∧
    ∀ srt, srt ≠ Sorting.NONE →
      bamToSamRun f headers q srt = Except.ok (bam_to_sam f headers q srt) := by
  refine ⟨rfl, ?_, ?_⟩
  · intro h
    rw [show bamToSamRun f headers q Sorting.NONE =
        Except.error (PyExc.unboundLocalError "lines") from rfl] at h
    exact Except.noConfusion h
  · intro srt hs
    unfold bamToSamRun
    rw [if_neg hs]

/-- C6 counterexample: on a space-delimited line the projector finds no tab
delimiter and passes the line through whole, so the claimed selection from
whitespace-delimited text does not happen. -/
theorem column_projection_counterexample :
    cutLine (parseCutSpec "1,2,5") "a b c d e f" = "a b c d e f" ∧
    cutLine (parseCutSpec "1,2,5") "a b c d e f" ≠ "a b e" :=
  ⟨rfl, by decide⟩

/-- C6 amended: projection selects tab-delimited fields by 1-based, possibly
ranged index: on the tab-delimited 6-column line a-f, field list 1,2,5
yields the tab-joined fields a b e and field list 1-3 yields a b c; a line
containing no tab passes through whole; no lines are filtered and input line
order is preserved (the projection maps lines one to one). -/
theorem column_projection_amended (t : String) :
    cutLine (parseCutSpec "1,2,5") "a\tb\tc\td\te\tf" = "a\tb\te" ∧
    cutLine (parseCutSpec "1-3") "a\tb\tc\td\te\tf" = "a\tb\tc" ∧
    ∀ spec, cutFileLines spec t = (fileLines t).map (cutLine spec) ∧
      (cutFileLines spec t).length = (fileLines t).length := by
  refine ⟨rfl, rfl, fun spec => ⟨rfl, ?_⟩⟩
  simp [cutFileLines]

/-- C7: the random-identifier normalization is idempotent: applying the
placeholder substitution twice yields the same text as applying it once. -/
theorem normalization_idempotent (s : String) :
    reSubUnset (reSubUnset s) = reSubUnset s := by
  simp only [reSubUnset]
  exact congrArg String.mk (subUnset_idem s.data)
